import Mathlib

/-!
Verification of the fancy-garbling binary bundle gadgets (src/fancy/binary.rs)
and the cost-model informer backend (src/informer.rs).

Wires of the plaintext (dummy) backend are embedded as a value together with a
modulus; the Fancy primitive vocabulary that binary.rs relies on but whose
source is not part of the snapshot (the dummy semantics of add, sub, mul, proj,
constant, and the derived gadgets negate, or, or_many, add_many, adder,
constant_bundle and u128_to_bits) is modelled from the specification.  The
binary gadgets themselves and every informer operation are translated directly
from the Rust source.
-/

/-- Modelled from the spec: a wire of the plaintext dummy backend.  Missing
from the snapshot (the dummy backend source is not under src/); the spec says a
wire carries a concrete integer value in `[0, p)` together with its modulus
tag `p`. -/
structure DWire where
  val : Nat
  mod : Nat
deriving DecidableEq, Repr

/-- Modelled from the spec: the error taxonomy of section 7 (the error module
is not part of the snapshot).  Only the kinds reachable from the translated
gadgets are included. -/
inductive FancyError where
  | unequalModuli : FancyError
  | invalidArgNum : Nat → Nat → FancyError
  | invalidTruthTable : FancyError
  | invalidInput : FancyError
deriving DecidableEq, Repr

/-- Outcome of a gadget: a Fancy error propagated through Result, or a Rust
panic (index out of bounds / violated assert), kept distinct from the error
channel because a panic is not a value of the Result type. -/
inductive GErr where
  | fancy : FancyError → GErr
  | panicked : GErr
deriving DecidableEq, Repr

namespace Dummy

/-- Modelled from the spec: `constant(v, p)` produces a wire with modulus `p`;
the constraint table of section 4.1 requires `v < p`, and section 7 assigns
`InvalidInput` to constants out of `[0, p)`. -/
def constant (v p : Nat) : Except GErr DWire :=
  if v < p then .ok ⟨v, p⟩ else .error (.fancy .invalidInput)

/-- Modelled from the spec: `add(x, y)` on two wires of the same modulus is
modular addition; it fails with `UnequalModuli` otherwise. -/
def add (x y : DWire) : Except GErr DWire :=
  if x.mod = y.mod then .ok ⟨(x.val + y.val) % x.mod, x.mod⟩
  else .error (.fancy .unequalModuli)

/-- Modelled from the spec: `sub(x, y)`, modular subtraction with the same
modulus discipline as `add`. -/
def sub (x y : DWire) : Except GErr DWire :=
  if x.mod = y.mod then .ok ⟨(x.val + (x.mod - y.val)) % x.mod, x.mod⟩
  else .error (.fancy .unequalModuli)

/-- Modelled from the spec: `mul(x, y)` produces the modular product on a wire
whose modulus is the modulus of the larger-modulus argument. -/
def mul (x y : DWire) : Except GErr DWire :=
  if x.mod < y.mod then .ok ⟨x.val * y.val % y.mod, y.mod⟩
  else .ok ⟨x.val * y.val % x.mod, x.mod⟩

/-- Modelled from the spec: `and(x, y)` for mod-2 wires is `mul(x, y)`. -/
def and (x y : DWire) : Except GErr DWire := mul x y

/-- Modelled from the spec: `negate(x)` for a mod-2 wire is xor-with-1, i.e.
addition of the constant 1 wire. -/
def negate (x : DWire) : Except GErr DWire := do
  let one ← constant 1 2
  add x one

/-- Modelled from the spec: `or(x, y)` for mod-2 wires is `x + y − x·y`. -/
def or (x y : DWire) : Except GErr DWire := do
  let s ← add x y
  let p ← mul x y
  sub s p

/-- Modelled from the spec: `or_many` folds `or` over a nonempty wire list
(an empty list indexes out of bounds). -/
def or_many : List DWire → Except GErr DWire
  | [] => .error .panicked
  | w :: ws => ws.foldlM or w

/-- Modelled from the spec: `add_many` folds `add` over a nonempty wire list
(an empty list indexes out of bounds). -/
def add_many : List DWire → Except GErr DWire
  | [] => .error .panicked
  | w :: ws => ws.foldlM add w

/-- Modelled from the spec: `adder(a, b, carry_in?)` is the half/full adder
composed of and/xor (xor being mod-2 `add`), returning the sum wire and the
carry-out wire. -/
def adder (x y : DWire) (c : Option DWire) : Except GErr (DWire × DWire) :=
  match c with
  | none => do
      let s ← add x y
      let cout ← and x y
      .ok (s, cout)
  | some cin => do
      let z1 ← add x y
      let z2 ← and z1 cin
      let z3 ← and x y
      let z4 ← or z2 z3
      let s ← add z1 cin
      .ok (s, z4)

end Dummy

/-- Modelled from the spec: `util::u128_to_bits(v, n)` is the little-endian
bit decomposition of `v` to exactly `n` bits (mask the low bit, shift right,
repeat). -/
def u128_to_bits : Nat → Nat → List Nat
  | _, 0 => []
  | v, n + 1 => v % 2 :: u128_to_bits (v / 2) n

/-- Collect a fallible computation over a list, stopping at the first error,
as the Rust iterator `collect` into a `Result` of a vector does. -/
def mapME {α β : Type} (f : α → Except GErr β) : List α → Except GErr (List β)
  | [] => .ok []
  | a :: rest => do
      let b ← f a
      let bs ← mapME f rest
      .ok (b :: bs)

/-- Modelled from the spec: `constant_bundle(vals, mods)` creates one constant
wire per (value, modulus) pair. -/
def constant_bundle (vals mods : List Nat) : Except GErr (List DWire) :=
  mapME (fun p => Dummy.constant p.1 p.2) (vals.zip mods)

/-- The moduli sequence of a bundle, as compared by the gadget guards. -/
def moduli (ws : List DWire) : List Nat := ws.map DWire.mod

/-- Little-endian unsigned value carried by a binary bundle. -/
def bval : List DWire → Nat
  | [] => 0
  | w :: ws => w.val + 2 * bval ws

/-- A well-formed binary bundle: every wire has modulus 2 and a bit value. -/
def isBin (ws : List DWire) : Prop := ∀ w ∈ ws, w.mod = 2 ∧ w.val < 2

instance (ws : List DWire) : Decidable (isBin ws) :=
  inferInstanceAs (Decidable (∀ w ∈ ws, w.mod = 2 ∧ w.val < 2))

/-- Two's-complement signed value carried by a binary bundle (the last wire is
the sign bit). -/
def sval (ws : List DWire) : Int :=
  (bval ws : Int) - (if (ws.getLastD ⟨0, 2⟩).val = 1 then (2 : Int) ^ ws.length else 0)

/-- `bin_constant_bundle(val, nbits)` from binary.rs. -/
def bin_constant_bundle (val nbits : Nat) : Except GErr (List DWire) :=
  constant_bundle (u128_to_bits val nbits) (List.replicate nbits 2)

/-- The ripple-carry loop shared by `bin_addition` and
`bin_addition_no_carry`: full adders threaded left to right from an incoming
carry (an index out of range on the second list is a panic). -/
def rippleAdd : DWire → List DWire → List DWire → Except GErr (List DWire × DWire)
  | c, [], _ => .ok ([], c)
  | _, _ :: _, [] => .error .panicked
  | c, x :: xs, y :: ys => do
      let r ← Dummy.adder x y (some c)
      let rest ← rippleAdd r.2 xs ys
      .ok (r.1 :: rest.1, rest.2)

/-- `bin_addition(xs, ys)` from binary.rs: guard on equal moduli sequences,
half adder on bit 0, then a full-adder loop over the remaining bits; returns
the sum bundle and the final carry (an empty bundle indexes out of bounds). -/
def bin_addition (xs ys : List DWire) : Except GErr (List DWire × DWire) :=
  if moduli xs = moduli ys then
    match xs, ys with
    | x0 :: xt, y0 :: yt => do
        let r ← Dummy.adder x0 y0 none
        let rest ← rippleAdd r.2 xt yt
        .ok (r.1 :: rest.1, rest.2)
    | _, _ => .error .panicked
  else .error (.fancy .unequalModuli)

/-- `bin_addition_no_carry(xs, ys)` from binary.rs: same guard and half adder,
full-adder loop over indices `1 .. len − 1`, and a final `add_many` of the two
last operand wires and the incoming carry (for width 1 the last operand wires
are again the wires at index 0). -/
def bin_addition_no_carry (xs ys : List DWire) : Except GErr (List DWire) :=
  if moduli xs = moduli ys then
    match xs, ys with
    | x0 :: xt, y0 :: yt => do
        let r ← Dummy.adder x0 y0 none
        let mid ← rippleAdd r.2 xt.dropLast yt.dropLast
        let z ← Dummy.add_many [xt.getLastD x0, yt.getLastD y0, mid.2]
        .ok (r.1 :: mid.1 ++ [z])
    | _, _ => .error .panicked
  else .error (.fancy .unequalModuli)

/-- `bin_twos_complement(xs)` from binary.rs: negate every wire, then add the
constant-1 bundle of the same width without carry-out. -/
def bin_twos_complement (xs : List DWire) : Except GErr (List DWire) := do
  let not_xs ← mapME Dummy.negate xs
  let one ← bin_constant_bundle 1 xs.length
  bin_addition_no_carry not_xs one

/-- `bin_subtraction(xs, ys)` from binary.rs: add the two's complement of
`ys`; the second component of the result is the borrow (underflow) wire. -/
def bin_subtraction (xs ys : List DWire) : Except GErr (List DWire × DWire) := do
  let neg_ys ← bin_twos_complement ys
  bin_addition xs neg_ys

/-- `bin_lt(x, y)` from binary.rs: the borrow of `bin_subtraction`, corrected
by the clause `(y == 0 && x != 0)`, all negated. -/
def bin_lt (xs ys : List DWire) : Except GErr DWire := do
  let r ← bin_subtraction xs ys
  let lhs := r.2
  let y_contains_1 ← Dummy.or_many ys
  let y_eq_0 ← Dummy.negate y_contains_1
  let x_contains_1 ← Dummy.or_many xs
  let rhs ← Dummy.and y_eq_0 x_contains_1
  let geq ← Dummy.or lhs rhs
  Dummy.negate geq

/-- `bin_geq(x, y)` from binary.rs: the negation of `bin_lt(x, y)`. -/
def bin_geq (xs ys : List DWire) : Except GErr DWire := do
  let z ← bin_lt xs ys
  Dummy.negate z

/-- The fold body of `bin_max` from binary.rs: blend the candidate `y` into
the running maximum `x` through the selector `bin_lt(x, y)`. -/
def bin_max_fold (x y : List DWire) : Except GErr (List DWire) := do
  let pos ← bin_lt x y
  let neg ← Dummy.negate pos
  mapME (fun p => do
    let xp ← Dummy.mul p.1 neg
    let yp ← Dummy.mul p.2 pos
    Dummy.add xp yp) (x.zip y)

/-- `bin_max(xs)` from binary.rs: fewer than two bundles is
`InvalidArgNum{got, needed: 2}`; otherwise a left fold of the blend over the
tail starting from the first bundle. -/
def bin_max (xs : List (List DWire)) : Except GErr (List DWire) :=
  if xs.length < 2 then .error (.fancy (.invalidArgNum xs.length 2))
  else xs.tail.foldlM bin_max_fold (xs.headD [])

/-- `bin_logical_shr(xs, ys)` from binary.rs: the body fixes the shift amount
`c = 0`, keeps `width − c` wires starting at index `c`, and pads with `c`
constant-0 wires; `ys` is accepted but never used. -/
def bin_logical_shr (xs ys : List DWire) : Except GErr (List DWire) := do
  let width := xs.length
  let c := 0
  let keep := width - c
  let zero ← Dummy.constant 0 2
  .ok ((xs.drop c).take keep ++ List.replicate c zero)

/-- The counter and collection state of the Informer (src/informer.rs).  The
`HashSet` of constants is embedded as a duplicate-free insertion list. -/
structure InformerState where
  garbler_input_moduli : List Nat
  evaluator_input_moduli : List Nat
  constants : List (Nat × Nat)
  outputs : List Nat
  nadds : Nat
  nsubs : Nat
  ncmuls : Nat
  nmuls : Nat
  nprojs : Nat
  nciphertexts : Nat
deriving DecidableEq, Repr

/-- The freshly constructed Informer (Informer::new). -/
def InformerState.init : InformerState :=
  ⟨[], [], [], [], 0, 0, 0, 0, 0, 0⟩

/-- The outcome of one Informer primitive: a new state together with the
returned wire, or a process abort from a violated `assert!`.  The `err` shape
is the result-or-error channel of the Fancy error taxonomy; the Informer
implementation in src/informer.rs never produces it. -/
inductive InfResult (α : Type) where
  | ok : InformerState → α → InfResult α
  | err : FancyError → InfResult α
  | panicked : InfResult α
deriving DecidableEq, Repr

/-- Informer::garbler_input: push the modulus and return it as the wire. -/
def informerGarblerInput (s : InformerState) (modulus : Nat) : InformerState × Nat :=
  ({ s with garbler_input_moduli := s.garbler_input_moduli ++ [modulus] }, modulus)

/-- Informer::evaluator_input: push the modulus and return it as the wire. -/
def informerEvaluatorInput (s : InformerState) (modulus : Nat) : InformerState × Nat :=
  ({ s with evaluator_input_moduli := s.evaluator_input_moduli ++ [modulus] }, modulus)

/-- Informer::constant: insert `(val, modulus)` into the constant set. -/
def informerConstant (s : InformerState) (val modulus : Nat) : InformerState × Nat :=
  ({ s with constants :=
      if (val, modulus) ∈ s.constants then s.constants
      else s.constants ++ [(val, modulus)] }, modulus)

/-- Informer::add: `assert!(x.modulus() == y.modulus())`, then count one
addition; the wire arguments are their modulus tags. -/
def informerAdd (s : InformerState) (x y : Nat) : InfResult Nat :=
  if x = y then .ok { s with nadds := s.nadds + 1 } x else .panicked

/-- Informer::sub: `assert!(x.modulus() == y.modulus())`, then count one
subtraction. -/
def informerSub (s : InformerState) (x y : Nat) : InfResult Nat :=
  if x = y then .ok { s with nsubs := s.nsubs + 1 } x else .panicked

/-- Informer::cmul: count one scalar multiplication. -/
def informerCmul (s : InformerState) (x : Nat) (_c : Nat) : InformerState × Nat :=
  ({ s with ncmuls := s.ncmuls + 1 }, x)

/-- The body of Informer::mul after canonicalization: one multiplication,
`x + y − 2` ciphertexts, and one extra ciphertext when `x ≠ y`. -/
def informerMulCounted (s : InformerState) (x y : Nat) : InformerState × Nat :=
  let s1 := { s with nmuls := s.nmuls + 1 }
  let s2 := { s1 with nciphertexts := s1.nciphertexts + (x + y - 2) }
  let s3 := if x ≠ y then { s2 with nciphertexts := s2.nciphertexts + 1 } else s2
  (s3, x)

/-- Informer::mul: if `x.modulus() < y.modulus()` recurse with the arguments
swapped, else count the multiplication. -/
def informerMul (s : InformerState) (x y : Nat) : InformerState × Nat :=
  if x < y then informerMul s y x
  else informerMulCounted s x y
termination_by (if x < y then 1 else 0)
decreasing_by
  simp only [if_pos (by omega : x < y)]
  have h2 : ¬ y < x := by omega
  simp [h2]

/-- Informer::proj: `assert_eq!(tt.len(), x.modulus())` and
`assert!(tt.iter().all(|&e| e < modulus))`, then one projection and
`x.modulus() − 1` ciphertexts. -/
def informerProj (s : InformerState) (x : Nat) (modulus : Nat) (tt : List Nat) :
    InfResult Nat :=
  if tt.length = x then
    if tt.all (fun e => e < modulus) then
      .ok { s with nprojs := s.nprojs + 1,
                   nciphertexts := s.nciphertexts + (x - 1) } modulus
    else .panicked
  else .panicked

/-- Informer::output: push the wire modulus onto the output list. -/
def informerOutput (s : InformerState) (x : Nat) : InformerState :=
  { s with outputs := s.outputs ++ [x] }

/-- A mod-2 addition of two mod-2 wires always succeeds. -/
theorem add_bits (x y : DWire) (hx : x.mod = 2) (hy : y.mod = 2) :
    Dummy.add x y = .ok ⟨(x.val + y.val) % 2, 2⟩ := by
  simp [Dummy.add, hx, hy]

/-- Negation of a bit wire flips the bit. -/
theorem negate_bit (x : DWire) (hx : x.mod = 2) (hv : x.val < 2) :
    Dummy.negate x = .ok ⟨1 - x.val, 2⟩ := by
  obtain ⟨v, m⟩ := x
  simp only [DWire.mod] at hx
  simp only [DWire.val] at hv
  subst hx
  interval_cases v <;> rfl

/-- Conjunction (mul) of two bit wires is the product bit. -/
theorem and_bits (x y : DWire) (hx : x.mod = 2) (hy : y.mod = 2)
    (hxv : x.val < 2) (hyv : y.val < 2) :
    Dummy.and x y = .ok ⟨x.val * y.val, 2⟩ := by
  obtain ⟨v, m⟩ := x
  obtain ⟨w, n⟩ := y
  simp only [DWire.mod] at hx hy
  simp only [DWire.val] at hxv hyv
  subst hx hy
  interval_cases v <;> interval_cases w <;> rfl

/-- Disjunction of two bit wires. -/
theorem or_bits (x y : DWire) (hx : x.mod = 2) (hy : y.mod = 2)
    (hxv : x.val < 2) (hyv : y.val < 2) :
    Dummy.or x y = .ok ⟨if x.val = 0 ∧ y.val = 0 then 0 else 1, 2⟩ := by
  obtain ⟨v, m⟩ := x
  obtain ⟨w, n⟩ := y
  simp only [DWire.mod] at hx hy
  simp only [DWire.val] at hxv hyv
  subst hx hy
  interval_cases v <;> interval_cases w <;> rfl

/-- The full adder on bit wires produces the mod-2 sum and the carry. -/
theorem adder_some_bits (x y c : DWire) (hx : x.mod = 2) (hy : y.mod = 2)
    (hc : c.mod = 2) (hxv : x.val < 2) (hyv : y.val < 2) (hcv : c.val < 2) :
    Dummy.adder x y (some c) =
      .ok (⟨(x.val + y.val + c.val) % 2, 2⟩, ⟨(x.val + y.val + c.val) / 2, 2⟩) := by
  obtain ⟨v, m⟩ := x
  obtain ⟨w, n⟩ := y
  obtain ⟨u, k⟩ := c
  simp only [DWire.mod] at hx hy hc
  simp only [DWire.val] at hxv hyv hcv
  subst hx hy hc
  interval_cases v <;> interval_cases w <;> interval_cases u <;> rfl

/-- The half adder on bit wires produces the mod-2 sum and the carry. -/
theorem adder_none_bits (x y : DWire) (hx : x.mod = 2) (hy : y.mod = 2)
    (hxv : x.val < 2) (hyv : y.val < 2) :
    Dummy.adder x y none =
      .ok (⟨(x.val + y.val) % 2, 2⟩, ⟨(x.val + y.val) / 2, 2⟩) := by
  obtain ⟨v, m⟩ := x
  obtain ⟨w, n⟩ := y
  simp only [DWire.mod] at hx hy
  simp only [DWire.val] at hxv hyv
  subst hx hy
  interval_cases v <;> interval_cases w <;> rfl

/-- `add_many` of three bit wires is their mod-2 sum. -/
theorem add_many3_bits (x y c : DWire) (hx : x.mod = 2) (hy : y.mod = 2)
    (hc : c.mod = 2) (hxv : x.val < 2) (hyv : y.val < 2) (hcv : c.val < 2) :
    Dummy.add_many [x, y, c] = .ok ⟨(x.val + y.val + c.val) % 2, 2⟩ := by
  obtain ⟨v, m⟩ := x
  obtain ⟨w, n⟩ := y
  obtain ⟨u, k⟩ := c
  simp only [DWire.mod] at hx hy hc
  simp only [DWire.val] at hxv hyv hcv
  subst hx hy hc
  interval_cases v <;> interval_cases w <;> interval_cases u <;> rfl

/-- The unsigned value of a well-formed binary bundle is below `2 ^ width`. -/
theorem bval_lt (ws : List DWire) (h : isBin ws) : bval ws < 2 ^ ws.length := by
  induction ws with
  | nil => simp [bval]
  | cons w rest ih =>
      have hw := h w (by simp)
      have hrest : isBin rest := fun u hu => h u (List.mem_cons_of_mem _ hu)
      have := ih hrest
      simp only [bval, List.length_cons, pow_succ]
      omega

/-- A well-formed binary bundle's moduli sequence is all 2. -/
theorem isBin_moduli (ws : List DWire) (h : isBin ws) :
    moduli ws = List.replicate ws.length 2 := by
  induction ws with
  | nil => rfl
  | cons w rest ih =>
      have hw := h w (by simp)
      have hrest : isBin rest := fun u hu => h u (List.mem_cons_of_mem _ hu)
      simp [moduli, List.replicate, hw.1] at ih ⊢
      exact ih hrest

/-- Equal-width well-formed binary bundles have equal moduli sequences. -/
theorem isBin_moduli_eq (xs ys : List DWire) (hx : isBin xs) (hy : isBin ys)
    (hlen : xs.length = ys.length) : moduli xs = moduli ys := by
  rw [isBin_moduli xs hx, isBin_moduli ys hy, hlen]

/-- Projection reduction for wire literals. -/
@[simp] theorem DWire_val_mk (a b : Nat) : (⟨a, b⟩ : DWire).val = a := rfl

/-- Projection reduction for wire literals. -/
@[simp] theorem DWire_mod_mk (a b : Nat) : (⟨a, b⟩ : DWire).mod = b := rfl

/-- Reduction of `bind` on a successful `Except` computation. -/
@[simp] theorem bindOk {α β : Type} (a : α) (f : α → Except GErr β) :
    (Except.ok a >>= f : Except GErr β) = f a := rfl

/-- Reduction of `bind` on a failed `Except` computation. -/
@[simp] theorem bindErr {α β : Type} (e : GErr) (f : α → Except GErr β) :
    (Except.error e >>= f : Except GErr β) = Except.error e := rfl

/-- `pure` on the `Except` monad is `ok`. -/
@[simp] theorem pureOk {α : Type} (a : α) : (pure a : Except GErr α) = Except.ok a := rfl

/-- Correctness of the ripple-carry loop: on equal-length well-formed bit
lists and a bit carry, it succeeds and its output bits together with the final
carry represent the exact sum of the two inputs and the incoming carry. -/
theorem rippleAdd_spec (xs : List DWire) : ∀ (ys : List DWire) (c : DWire),
    isBin xs → isBin ys → xs.length = ys.length → c.mod = 2 → c.val < 2 →
    ∃ zs cout, rippleAdd c xs ys = .ok (zs, cout) ∧ zs.length = xs.length ∧
      isBin zs ∧ cout.mod = 2 ∧ cout.val < 2 ∧
      bval zs + 2 ^ xs.length * cout.val = bval xs + bval ys + c.val ∧
      bval zs < 2 ^ xs.length := by
  induction xs with
  | nil =>
      intro ys c _ _ hlen hc hcv
      have hys : ys = [] := by
        cases ys with
        | nil => rfl
        | cons y yt => simp at hlen
      subst hys
      exact ⟨[], c, rfl, rfl, by intro w hw; simp at hw, hc, hcv, by simp [bval], by simp [bval]⟩
  | cons x xt ih =>
      intro ys c hx hy hlen hc hcv
      cases ys with
      | nil => simp at hlen
      | cons y yt =>
          have hx0 := hx x (by simp)
          have hy0 := hy y (by simp)
          have hxt : isBin xt := fun u hu => hx u (List.mem_cons_of_mem _ hu)
          have hyt : isBin yt := fun u hu => hy u (List.mem_cons_of_mem _ hu)
          have hlen2 : xt.length = yt.length := by simpa using hlen
          have hcv2 : (x.val + y.val + c.val) / 2 < 2 := by omega
          obtain ⟨zs, cout, heq, hzlen, hzbin, hcm, hcv3, hsum, hblt⟩ :=
            ih yt ⟨(x.val + y.val + c.val) / 2, 2⟩ hxt hyt hlen2 rfl hcv2
          have hsum2 : bval zs + 2 ^ xt.length * cout.val =
              bval xt + bval yt + (x.val + y.val + c.val) / 2 := by
            simpa only [DWire_val_mk] using hsum
          refine ⟨⟨(x.val + y.val + c.val) % 2, 2⟩ :: zs, cout, ?_, by simp [hzlen], ?_,
            hcm, hcv3, ?_, ?_⟩
          · rw [rippleAdd, adder_some_bits x y c hx0.1 hy0.1 hc hx0.2 hy0.2 hcv]
            simp [heq]
          · intro u hu
            rcases List.mem_cons.1 hu with h | h
            · subst h
              refine ⟨rfl, ?_⟩
              simp only [DWire_val_mk]
              omega
            · exact hzbin u h
          · simp only [bval, List.length_cons, pow_succ, DWire_val_mk]
            rcases (by omega : cout.val = 0 ∨ cout.val = 1) with h0 | h0 <;>
              rw [h0] at hsum2 ⊢ <;> omega
          · simp only [bval, List.length_cons, pow_succ, DWire_val_mk]
            omega

/-- Unique characterization of quotient and remainder by the sum equation. -/
theorem sum_div_mod (A d T K : Nat) (hK : 0 < K) (h : A + K * d = T) (hA : A < K) :
    A = T % K ∧ d = T / K := by
  subst h
  constructor
  · rw [Nat.add_mul_mod_self_left, Nat.mod_eq_of_lt hA]
  · rw [Nat.add_mul_div_left _ _ hK, Nat.div_eq_of_lt hA, Nat.zero_add]

/-- Correctness of `bin_addition` on nonempty equal-width well-formed binary
bundles: it succeeds, and the sum bundle together with the carry wire
represents the exact sum of the operands. -/
theorem bin_addition_spec (xs ys : List DWire) (hx : isBin xs) (hy : isBin ys)
    (hlen : xs.length = ys.length) (hne : xs ≠ []) :
    ∃ zs cout, bin_addition xs ys = .ok (zs, cout) ∧ zs.length = xs.length ∧
      isBin zs ∧ cout.mod = 2 ∧ cout.val < 2 ∧
      bval zs + 2 ^ xs.length * cout.val = bval xs + bval ys ∧
      bval zs < 2 ^ xs.length := by
  cases xs with
  | nil => exact absurd rfl hne
  | cons x xt =>
      cases ys with
      | nil => simp at hlen
      | cons y yt =>
          have hx0 := hx x (by simp)
          have hy0 := hy y (by simp)
          have hxt : isBin xt := fun u hu => hx u (List.mem_cons_of_mem _ hu)
          have hyt : isBin yt := fun u hu => hy u (List.mem_cons_of_mem _ hu)
          have hlen2 : xt.length = yt.length := by simpa using hlen
          have hcv2 : (x.val + y.val) / 2 < 2 := by omega
          obtain ⟨zs, cout, heq, hzlen, hzbin, hcm, hcv3, hsum, hblt⟩ :=
            rippleAdd_spec xt yt ⟨(x.val + y.val) / 2, 2⟩ hxt hyt hlen2 rfl hcv2
          have hsum2 : bval zs + 2 ^ xt.length * cout.val =
              bval xt + bval yt + (x.val + y.val) / 2 := by
            simpa only [DWire_val_mk] using hsum
          refine ⟨⟨(x.val + y.val) % 2, 2⟩ :: zs, cout, ?_, by simp [hzlen], ?_,
            hcm, hcv3, ?_, ?_⟩
          · rw [bin_addition, if_pos (isBin_moduli_eq _ _ hx hy hlen)]
            rw [adder_none_bits x y hx0.1 hy0.1 hx0.2 hy0.2]
            simp [heq]
          · intro u hu
            rcases List.mem_cons.1 hu with h | h
            · subst h
              refine ⟨rfl, ?_⟩
              simp only [DWire_val_mk]
              omega
            · exact hzbin u h
          · simp only [bval, List.length_cons, pow_succ, DWire_val_mk]
            have hsplit : cout.val = 0 ∨ cout.val = 1 := by omega
            rcases hsplit with h0 | h0 <;> rw [h0] at hsum2 ⊢ <;> omega
          · simp only [bval, List.length_cons, pow_succ, DWire_val_mk]
            omega

/-- `bin_addition` on bundles with different moduli sequences fails with
`UnequalModuli`. -/
theorem bin_addition_unequal (xs ys : List DWire) (h : moduli xs ≠ moduli ys) :
    bin_addition xs ys = .error (.fancy .unequalModuli) := by
  simp only [bin_addition, if_neg h]

/-- `bin_addition_no_carry` on bundles with different moduli sequences fails
with `UnequalModuli`. -/
theorem bin_addition_no_carry_unequal (xs ys : List DWire) (h : moduli xs ≠ moduli ys) :
    bin_addition_no_carry xs ys = .error (.fancy .unequalModuli) := by
  simp only [bin_addition_no_carry, if_neg h]

/-- Splitting the ripple-carry loop at the last position: running it on lists
extended by one wire each is the plain run followed by one more full adder on
the outgoing carry. -/
theorem rippleAdd_append_ok (ms : List DWire) : ∀ (ns : List DWire) (a b c : DWire)
    (r : List DWire × DWire) (t : DWire × DWire),
    ms.length = ns.length →
    rippleAdd c ms ns = .ok r →
    Dummy.adder a b (some r.2) = .ok t →
    rippleAdd c (ms ++ [a]) (ns ++ [b]) = .ok (r.1 ++ [t.1], t.2) := by
  induction ms with
  | nil =>
      intro ns a b c r t hlen hr ht
      have hns : ns = [] := by
        cases ns with
        | nil => rfl
        | cons n nt => simp at hlen
      subst hns
      have hrc : r = ([], c) := by
        rw [rippleAdd] at hr
        exact (Except.ok.inj hr).symm
      subst hrc
      simp only [List.nil_append]
      rw [rippleAdd, ht]
      simp [rippleAdd]
  | cons m ms ih =>
      intro ns a b c r t hlen hr ht
      cases ns with
      | nil => simp at hlen
      | cons n nt =>
          have hlen2 : ms.length = nt.length := by simpa using hlen
          rw [rippleAdd] at hr
          cases h1 : Dummy.adder m n (some c) with
          | error e => rw [h1] at hr; simp at hr
          | ok r1 =>
              rw [h1] at hr
              simp only [bindOk] at hr
              cases h2 : rippleAdd r1.2 ms nt with
              | error e => rw [h2] at hr; simp at hr
              | ok r2 =>
                  rw [h2] at hr
                  simp only [bindOk, pureOk] at hr
                  have hrr : r = (r1.1 :: r2.1, r2.2) := (Except.ok.inj hr).symm
                  subst hrr
                  have := ih nt a b r1.2 r2 t hlen2 h2 ht
                  simp only [List.cons_append]
                  rw [rippleAdd, h1]
                  simp [this]

/-- The last element of a list extended by one element, through `getLastD`. -/
theorem getLastD_append_single (ms : List DWire) (a d : DWire) :
    (ms ++ [a]).getLastD d = a := by
  simp [List.getLastD_eq_getLast?]

/-- For bundles of width at least 2, `bin_addition_no_carry` succeeds exactly
when `bin_addition` does and returns precisely its sum bundle (the top bit is
the same mod-2 sum, computed by `add_many` instead of a full adder). -/
theorem no_carry_eq_addition (xs ys : List DWire) (hx : isBin xs) (hy : isBin ys)
    (hlen : xs.length = ys.length) (h2 : 2 ≤ xs.length) :
    ∃ zs cout, bin_addition xs ys = .ok (zs, cout) ∧
      bin_addition_no_carry xs ys = .ok zs := by
  cases xs with
  | nil => simp at h2
  | cons x0 xt =>
      cases ys with
      | nil => simp at hlen
      | cons y0 yt =>
          have hxtne : xt ≠ [] := by
            cases xt with
            | nil => simp at h2
            | cons a b => simp
          have hytne : yt ≠ [] := by
            intro hnil
            subst hnil
            have hz : xt.length = 0 := by simpa using hlen
            exact hxtne (List.eq_nil_of_length_eq_zero hz)
          have hx0 := hx x0 (by simp)
          have hy0 := hy y0 (by simp)
          have hxt : isBin xt := fun u hu => hx u (List.mem_cons_of_mem _ hu)
          have hyt : isBin yt := fun u hu => hy u (List.mem_cons_of_mem _ hu)
          have hlen2 : xt.length = yt.length := by simpa using hlen
          have hmidx : xt.dropLast ++ [xt.getLast hxtne] = xt :=
            List.dropLast_append_getLast hxtne
          have hmidy : yt.dropLast ++ [yt.getLast hytne] = yt :=
            List.dropLast_append_getLast hytne
          have hxl := hxt (xt.getLast hxtne) (List.getLast_mem hxtne)
          have hyl := hyt (yt.getLast hytne) (List.getLast_mem hytne)
          have hmidbx : isBin xt.dropLast := fun u hu => hxt u (List.dropLast_subset _ hu)
          have hmidby : isBin yt.dropLast := fun u hu => hyt u (List.dropLast_subset _ hu)
          have hmlen : xt.dropLast.length = yt.dropLast.length := by
            simp [List.length_dropLast, hlen2]
          have hc0v : (x0.val + y0.val) / 2 < 2 := by omega
          obtain ⟨zsm, cm, hrm, _, _, hcmm, hcmv, _, _⟩ :=
            rippleAdd_spec xt.dropLast yt.dropLast ⟨(x0.val + y0.val) / 2, 2⟩
              hmidbx hmidby hmlen rfl hc0v
          have hadderTop := adder_some_bits (xt.getLast hxtne) (yt.getLast hytne) cm
            hxl.1 hyl.1 hcmm hxl.2 hyl.2 hcmv
          have haddm := add_many3_bits (xt.getLast hxtne) (yt.getLast hytne) cm
            hxl.1 hyl.1 hcmm hxl.2 hyl.2 hcmv
          have hmod := isBin_moduli_eq _ _ hx hy hlen
          refine ⟨⟨(x0.val + y0.val) % 2, 2⟩ :: (zsm ++
              [⟨((xt.getLast hxtne).val + (yt.getLast hytne).val + cm.val) % 2, 2⟩]),
            ⟨((xt.getLast hxtne).val + (yt.getLast hytne).val + cm.val) / 2, 2⟩, ?_, ?_⟩
          · rw [bin_addition, if_pos hmod,
              adder_none_bits x0 y0 hx0.1 hy0.1 hx0.2 hy0.2]
            have hfull : rippleAdd ⟨(x0.val + y0.val) / 2, 2⟩ xt yt =
                .ok (zsm ++
                  [⟨((xt.getLast hxtne).val + (yt.getLast hytne).val + cm.val) % 2, 2⟩],
                  ⟨((xt.getLast hxtne).val + (yt.getLast hytne).val + cm.val) / 2, 2⟩) := by
              conv_lhs => rw [← hmidx, ← hmidy]
              exact rippleAdd_append_ok xt.dropLast yt.dropLast _ _ _ (zsm, cm) _
                hmlen hrm hadderTop
            simp [hfull]
          · rw [bin_addition_no_carry, if_pos hmod,
              adder_none_bits x0 y0 hx0.1 hy0.1 hx0.2 hy0.2]
            have hlast1 : xt.getLastD x0 = xt.getLast hxtne := by
              conv_lhs => rw [← hmidx]
              exact getLastD_append_single _ _ _
            have hlast2 : yt.getLastD y0 = yt.getLast hytne := by
              conv_lhs => rw [← hmidy]
              exact getLastD_append_single _ _ _
            simp only [bindOk]
            rw [hrm]
            simp only [bindOk, hlast1, hlast2]
            rw [haddm]
            simp

/-- Value-level corollary: for width at least 2, `bin_addition_no_carry`
computes the truncated sum. -/
theorem no_carry_spec (xs ys : List DWire) (hx : isBin xs) (hy : isBin ys)
    (hlen : xs.length = ys.length) (h2 : 2 ≤ xs.length) :
    ∃ zs, bin_addition_no_carry xs ys = .ok zs ∧ zs.length = xs.length ∧ isBin zs ∧
      bval zs = (bval xs + bval ys) % 2 ^ xs.length := by
  obtain ⟨zs, cout, ha, hnc⟩ := no_carry_eq_addition xs ys hx hy hlen h2
  obtain ⟨zs2, cout2, ha2, hlen2, hbin2, _, hcv2, hsum2, hlt2⟩ :=
    bin_addition_spec xs ys hx hy hlen (by intro hnil; rw [hnil] at h2; simp at h2)
  rw [ha] at ha2
  have hz : zs = zs2 ∧ cout = cout2 := by
    have := Except.ok.inj ha2
    exact ⟨congrArg Prod.fst this, congrArg Prod.snd this⟩
  obtain ⟨hz1, hz2⟩ := hz
  subst hz1
  refine ⟨zs, hnc, hlen2, hbin2, ?_⟩
  exact (sum_div_mod _ _ _ _ (Nat.pos_pow_of_pos _ (by omega)) hsum2 hlt2).1

/-- Zero decomposes to all-zero bits. -/
theorem u128_to_bits_zero (n : Nat) : u128_to_bits 0 n = List.replicate n 0 := by
  induction n with
  | zero => rfl
  | succ m ih => simp [u128_to_bits, ih, List.replicate]

/-- A list of bit values becomes a bundle of constant bit wires. -/
theorem constant_bundle_bits (bs : List Nat) (h : ∀ b ∈ bs, b < 2) :
    constant_bundle bs (List.replicate bs.length 2) =
      .ok (bs.map (fun b => ⟨b, 2⟩)) := by
  induction bs with
  | nil => rfl
  | cons b rest ih =>
      have hb := h b (by simp)
      have hrest : ∀ u ∈ rest, u < 2 := fun u hu => h u (List.mem_cons_of_mem _ hu)
      simp only [List.length_cons, List.replicate, constant_bundle, List.zip_cons_cons,
        mapME]
      rw [show Dummy.constant b 2 = .ok ⟨b, 2⟩ by simp [Dummy.constant, hb]]
      have ih2 := ih hrest
      simp only [constant_bundle, List.zip] at ih2
      simp [ih2, List.map]

/-- The constant-1 binary bundle of any positive width. -/
theorem bin_constant_bundle_one (n : Nat) (h : 1 ≤ n) :
    bin_constant_bundle 1 n =
      .ok (⟨1, 2⟩ :: List.replicate (n - 1) (⟨0, 2⟩ : DWire)) := by
  cases n with
  | zero => omega
  | succ m =>
      rw [bin_constant_bundle]
      rw [show u128_to_bits 1 (m + 1) = 1 :: List.replicate m 0 by
        simp [u128_to_bits, u128_to_bits_zero]]
      have := constant_bundle_bits (1 :: List.replicate m 0)
        (by intro b hb
            rcases List.mem_cons.1 hb with h1 | h1
            · omega
            · rw [List.eq_of_mem_replicate h1]; omega)
      simp only [List.length_cons, List.length_replicate] at this
      rw [this]
      simp [List.map_replicate]

/-- The unsigned value of a replicated-zero bundle is zero. -/
theorem bval_replicate_zero (k : Nat) : bval (List.replicate k (⟨0, 2⟩ : DWire)) = 0 := by
  induction k with
  | zero => rfl
  | succ m ih => simp [List.replicate, bval, ih]

/-- Negation maps a well-formed binary bundle to its bitwise complement. -/
theorem mapME_negate (ws : List DWire) (h : isBin ws) :
    mapME Dummy.negate ws = .ok (ws.map (fun w => ⟨1 - w.val, 2⟩)) := by
  induction ws with
  | nil => rfl
  | cons w rest ih =>
      have hw := h w (by simp)
      have hrest : isBin rest := fun u hu => h u (List.mem_cons_of_mem _ hu)
      simp only [mapME]
      rw [negate_bit w hw.1 hw.2]
      simp [ih hrest]

/-- Bitwise complement reflects the value as `2 ^ n − 1 − x`. -/
theorem bval_map_flip (ws : List DWire) (h : isBin ws) :
    bval (ws.map (fun w => ⟨1 - w.val, 2⟩)) = 2 ^ ws.length - 1 - bval ws := by
  induction ws with
  | nil => rfl
  | cons w rest ih =>
      have hw := h w (by simp)
      have hrest : isBin rest := fun u hu => h u (List.mem_cons_of_mem _ hu)
      have hlt := bval_lt rest hrest
      simp only [List.map_cons, bval, DWire_val_mk, List.length_cons, pow_succ, ih hrest]
      omega

/-- For width at least 2, `bin_twos_complement` succeeds and computes the
two's complement value `(2 ^ n − x) mod 2 ^ n`; in particular the two's
complement of 0 is 0. -/
theorem bin_twos_complement_spec (ys : List DWire) (hy : isBin ys) (h2 : 2 ≤ ys.length) :
    ∃ zs, bin_twos_complement ys = .ok zs ∧ zs.length = ys.length ∧ isBin zs ∧
      bval zs = (2 ^ ys.length - bval ys) % 2 ^ ys.length := by
  have hflip : isBin (ys.map (fun w => ⟨1 - w.val, 2⟩)) := by
    intro u hu
    rcases List.mem_map.1 hu with ⟨w, _, hw⟩
    subst hw
    exact ⟨rfl, by simp; omega⟩
  have hflen : (ys.map (fun w => (⟨1 - w.val, 2⟩ : DWire))).length = ys.length := by simp
  have hone : isBin (⟨1, 2⟩ :: List.replicate (ys.length - 1) (⟨0, 2⟩ : DWire)) := by
    intro u hu
    rcases List.mem_cons.1 hu with h | h
    · subst h; exact ⟨rfl, by decide⟩
    · rw [List.eq_of_mem_replicate h]; exact ⟨rfl, by decide⟩
  have honelen : (⟨1, 2⟩ :: List.replicate (ys.length - 1) (⟨0, 2⟩ : DWire)).length =
      ys.length := by simp; omega
  obtain ⟨zs, hnc, hzlen, hzbin, hzval⟩ :=
    no_carry_spec (ys.map (fun w => ⟨1 - w.val, 2⟩))
      (⟨1, 2⟩ :: List.replicate (ys.length - 1) (⟨0, 2⟩ : DWire))
      hflip hone (by rw [hflen, honelen]) (by rw [hflen]; exact h2)
  refine ⟨zs, ?_, by rw [hzlen, hflen], hzbin, ?_⟩
  · rw [bin_twos_complement, mapME_negate ys hy]
    simp only [bindOk]
    rw [bin_constant_bundle_one ys.length (by omega)]
    simpa using hnc
  · rw [hzval, hflen, bval_map_flip ys hy]
    have hblt := bval_lt ys hy
    have hb1 : bval (⟨1, 2⟩ :: List.replicate (ys.length - 1) (⟨0, 2⟩ : DWire)) = 1 := by
      simp [bval, bval_replicate_zero]
    rw [hb1]
    congr 1
    omega

/-- For width at least 2, the borrow wire of `bin_subtraction` is set exactly
when the subtrahend is nonzero and does not exceed the minuend. -/
theorem bin_subtraction_spec (xs ys : List DWire) (hx : isBin xs) (hy : isBin ys)
    (hlen : xs.length = ys.length) (h2 : 2 ≤ xs.length) :
    ∃ ds borrow, bin_subtraction xs ys = .ok (ds, borrow) ∧ borrow.mod = 2 ∧
      isBin ds ∧ ds.length = xs.length ∧
      borrow.val = (if bval ys ≠ 0 ∧ bval ys ≤ bval xs then 1 else 0) := by
  obtain ⟨zs, htc, hzlen, hzbin, hzval⟩ :=
    bin_twos_complement_spec ys hy (by omega)
  obtain ⟨ds, borrow, hadd, hdlen, hdbin, hbm, hbv, hsum, hdlt⟩ :=
    bin_addition_spec xs zs hx hzbin (by omega) (by
      intro hnil
      rw [hnil] at h2
      simp at h2)
  refine ⟨ds, borrow, ?_, hbm, hdbin, hdlen, ?_⟩
  · rw [bin_subtraction, htc]
    simpa using hadd
  · have hxlt := bval_lt xs hx
    have hylt := bval_lt ys hy
    have hylt2 : bval ys < 2 ^ xs.length := by rw [hlen]; exact hylt
    have hP : 0 < 2 ^ xs.length := Nat.pos_pow_of_pos _ (by omega)
    have hsplit : borrow.val = 0 ∨ borrow.val = 1 := by omega
    by_cases hy0 : bval ys = 0
    · have hz0 : bval zs = 0 := by
        rw [hzval, hy0]
        simp
      rw [hz0] at hsum
      rcases hsplit with h0 | h0 <;> rw [h0] at hsum ⊢ <;> simp [hy0] <;> omega
    · have hzv : bval zs = 2 ^ xs.length - bval ys := by
        rw [hzval, ← hlen]
        exact Nat.mod_eq_of_lt (by omega)
      rw [hzv] at hsum
      rcases hsplit with h0 | h0 <;> rw [h0] at hsum ⊢ <;>
        split_ifs with hcond <;> omega

/-- Folding `or` over bit wires accumulates the disjunction of all bits. -/
theorem foldl_or_spec (ws : List DWire) : ∀ (acc : DWire), isBin ws → acc.mod = 2 →
    acc.val < 2 →
    ws.foldlM Dummy.or acc = .ok ⟨if acc.val = 0 ∧ bval ws = 0 then 0 else 1, 2⟩ := by
  induction ws with
  | nil =>
      intro acc _ hm hv
      obtain ⟨av, am⟩ := acc
      simp only [DWire_mod_mk] at hm
      simp only [DWire_val_mk] at hv
      subst hm
      simp only [List.foldlM, bval, DWire_val_mk]
      interval_cases av <;> simp
  | cons w rest ih =>
      intro acc hws hm hv
      have hw := hws w (by simp)
      have hrest : isBin rest := fun u hu => hws u (List.mem_cons_of_mem _ hu)
      simp only [List.foldlM]
      rw [or_bits acc w hm hw.1 hv hw.2]
      simp only [bindOk]
      rw [ih ⟨if acc.val = 0 ∧ w.val = 0 then 0 else 1, 2⟩ hrest rfl
        (by split_ifs <;> decide)]
      congr 1
      simp only [bval, DWire_val_mk]
      by_cases h1 : acc.val = 0 <;> by_cases h2 : w.val = 0 <;>
        by_cases h3 : bval rest = 0 <;> simp [h1, h2, h3] <;> omega

/-- `or_many` of a nonempty well-formed binary bundle is the indicator of the
bundle being nonzero. -/
theorem or_many_spec (ws : List DWire) (h : isBin ws) (hne : ws ≠ []) :
    Dummy.or_many ws = .ok ⟨if bval ws = 0 then 0 else 1, 2⟩ := by
  cases ws with
  | nil => exact absurd rfl hne
  | cons w rest =>
      have hw := h w (by simp)
      have hrest : isBin rest := fun u hu => h u (List.mem_cons_of_mem _ hu)
      rw [Dummy.or_many, foldl_or_spec rest w hrest hw.1 hw.2]
      congr 1
      simp only [bval]
      by_cases h2 : w.val = 0 <;> by_cases h3 : bval rest = 0 <;>
        simp [h2, h3] <;> omega

/-- For width at least 2, `bin_lt` computes the strict unsigned comparison of
the bit-pattern values, except that two all-zero bundles compare as less. -/
theorem bin_lt_spec (xs ys : List DWire) (hx : isBin xs) (hy : isBin ys)
    (hlen : xs.length = ys.length) (h2 : 2 ≤ xs.length) :
    bin_lt xs ys =
      .ok ⟨if bval xs < bval ys ∨ (bval xs = 0 ∧ bval ys = 0) then 1 else 0, 2⟩ := by
  have hxne : xs ≠ [] := by intro h; rw [h] at h2; simp at h2
  have hyne : ys ≠ [] := by
    intro h
    rw [h] at hlen
    simp at hlen
    rw [hlen] at h2
    simp at h2
  obtain ⟨ds, borrow, hsub, hbm, hdbin, hdlen, hbv⟩ :=
    bin_subtraction_spec xs ys hx hy hlen h2
  obtain ⟨bv, bm⟩ := borrow
  simp only [DWire_mod_mk] at hbm
  simp only [DWire_val_mk] at hbv
  subst hbm
  subst hbv
  rw [bin_lt, hsub]
  simp only [bindOk]
  rw [or_many_spec ys hy hyne]
  simp only [bindOk]
  rw [negate_bit ⟨if bval ys = 0 then 0 else 1, 2⟩ rfl (by split_ifs <;> decide)]
  simp only [bindOk, DWire_val_mk]
  rw [or_many_spec xs hx hxne]
  simp only [bindOk]
  rw [show Dummy.and ⟨1 - (if bval ys = 0 then 0 else 1), 2⟩
        ⟨if bval xs = 0 then 0 else 1, 2⟩ =
      .ok ⟨(1 - (if bval ys = 0 then 0 else 1)) * (if bval xs = 0 then 0 else 1), 2⟩ from
    and_bits _ _ rfl rfl (by split_ifs <;> decide) (by split_ifs <;> decide)]
  simp only [bindOk, DWire_val_mk]
  rw [show Dummy.or ⟨if bval ys ≠ 0 ∧ bval ys ≤ bval xs then 1 else 0, 2⟩
        ⟨(1 - (if bval ys = 0 then 0 else 1)) * (if bval xs = 0 then 0 else 1), 2⟩ =
      .ok ⟨if (if bval ys ≠ 0 ∧ bval ys ≤ bval xs then 1 else 0) = 0 ∧
             (1 - (if bval ys = 0 then 0 else 1)) * (if bval xs = 0 then 0 else 1) = 0
           then 0 else 1, 2⟩ from
    or_bits _ _ rfl rfl (by split_ifs <;> decide)
      (by split_ifs <;> decide)]
  simp only [bindOk]
  rw [negate_bit _ rfl (by dsimp only [DWire_val_mk]; split_ifs <;> decide)]
  simp only [DWire_val_mk]
  congr 1
  by_cases hA : bval ys = 0
  · by_cases hB : bval xs = 0 <;> simp [hA, hB]
  · by_cases hC : bval ys ≤ bval xs
    · have hnlt : ¬ (bval xs < bval ys) := by omega
      simp [hA, hC, hnlt]
    · have hlt : bval xs < bval ys := by omega
      simp [hA, hC, hlt]

/-- C4: for all equal-width well-formed binary bundles of width at least 1,
`bin_addition` returns the little-endian bits of `(x + y) mod 2 ^ n` and a
carry wire carrying `(x + y) / 2 ^ n`; on differing moduli sequences (in
particular on length mismatch) it fails with `UnequalModuli`. -/
theorem claim_C4 :
    (∀ (xs ys : List DWire), isBin xs → isBin ys → xs.length = ys.length →
      1 ≤ xs.length →
      ∃ zs cout, bin_addition xs ys = .ok (zs, cout) ∧ isBin zs ∧
        zs.length = xs.length ∧
        bval zs = (bval xs + bval ys) % 2 ^ xs.length ∧
        cout.mod = 2 ∧ cout.val = (bval xs + bval ys) / 2 ^ xs.length) ∧
    (∀ (xs ys : List DWire), moduli xs ≠ moduli ys →
      bin_addition xs ys = .error (.fancy .unequalModuli)) := by
  constructor
  · intro xs ys hx hy hlen h1
    obtain ⟨zs, cout, ha, hl, hb, hcm, hcv, hsum, hlt⟩ :=
      bin_addition_spec xs ys hx hy hlen (by intro h; rw [h] at h1; simp at h1)
    obtain ⟨hm, hd⟩ := sum_div_mod _ _ _ _ (Nat.pos_pow_of_pos _ (by omega)) hsum hlt
    exact ⟨zs, cout, ha, hb, hl, hm, hcm, hd⟩
  · exact bin_addition_unequal

/-- Witness for C4 at the concrete input x = 1, y = 3 of width 2. -/
theorem claim_C4_witness :
    ∃ zs cout,
      bin_addition [(⟨1, 2⟩ : DWire), ⟨0, 2⟩] [(⟨1, 2⟩ : DWire), ⟨1, 2⟩] =
        .ok (zs, cout) ∧ isBin zs ∧
      zs.length = [(⟨1, 2⟩ : DWire), ⟨0, 2⟩].length ∧
      bval zs = (bval [(⟨1, 2⟩ : DWire), ⟨0, 2⟩] + bval [(⟨1, 2⟩ : DWire), ⟨1, 2⟩]) %
        2 ^ [(⟨1, 2⟩ : DWire), ⟨0, 2⟩].length ∧
      cout.mod = 2 ∧
      cout.val = (bval [(⟨1, 2⟩ : DWire), ⟨0, 2⟩] + bval [(⟨1, 2⟩ : DWire), ⟨1, 2⟩]) /
        2 ^ [(⟨1, 2⟩ : DWire), ⟨0, 2⟩].length :=
  claim_C4.1 [⟨1, 2⟩, ⟨0, 2⟩] [⟨1, 2⟩, ⟨1, 2⟩] (by decide) (by decide) rfl (by decide)

/-- C6 counterexample: on width-1 bundles the sum bundle of `bin_addition`
has width 1 while `bin_addition_no_carry` returns a width-2 bundle, so the
two results are not identical. -/
theorem claim_C6_counterexample :
    bin_addition [(⟨0, 2⟩ : DWire)] [⟨0, 2⟩] = .ok ([⟨0, 2⟩], ⟨0, 2⟩) ∧
    bin_addition_no_carry [(⟨0, 2⟩ : DWire)] [⟨0, 2⟩] = .ok [⟨0, 2⟩, ⟨0, 2⟩] ∧
    [(⟨0, 2⟩ : DWire)] ≠ [⟨0, 2⟩, ⟨0, 2⟩] := by
  refine ⟨rfl, rfl, by simp⟩

/-- C6 amended: for equal-moduli well-formed binary bundles of width at least
2, `bin_addition_no_carry` returns exactly the sum bundle of `bin_addition`
(the top bit computed by `add_many` of the two top operand bits and the
incoming carry); on differing moduli sequences both fail with
`UnequalModuli`.  Width-1 bundles are the exception: there the no-carry
variant widens the bundle. -/
theorem claim_C6_amended :
    (∀ (xs ys : List DWire), isBin xs → isBin ys → xs.length = ys.length →
      2 ≤ xs.length →
      ∃ zs cout, bin_addition xs ys = .ok (zs, cout) ∧
        bin_addition_no_carry xs ys = .ok zs) ∧
    (∀ (xs ys : List DWire), moduli xs ≠ moduli ys →
      bin_addition_no_carry xs ys = .error (.fancy .unequalModuli) ∧
      bin_addition xs ys = .error (.fancy .unequalModuli)) :=
  ⟨fun xs ys hx hy hlen h2 => no_carry_eq_addition xs ys hx hy hlen h2,
   fun xs ys h => ⟨bin_addition_no_carry_unequal xs ys h, bin_addition_unequal xs ys h⟩⟩

/-- Witness for C6 amended at a concrete width-2 input. -/
theorem claim_C6_witness :
    ∃ zs cout,
      bin_addition [(⟨1, 2⟩ : DWire), ⟨1, 2⟩] [(⟨1, 2⟩ : DWire), ⟨0, 2⟩] =
        .ok (zs, cout) ∧
      bin_addition_no_carry [(⟨1, 2⟩ : DWire), ⟨1, 2⟩] [(⟨1, 2⟩ : DWire), ⟨0, 2⟩] =
        .ok zs :=
  claim_C6_amended.1 [⟨1, 2⟩, ⟨1, 2⟩] [⟨1, 2⟩, ⟨0, 2⟩] (by decide) (by decide) rfl
    (by decide)

/-- C10: `bin_addition_no_carry` on a pair of width-1 binary bundles returns
a width-2 bundle — the bit-0 mod-2 sum followed by `add_many` of the two
bit-0 wires and the half adder's carry — while for width at least 2 the
bundle width is preserved. -/
theorem claim_C10 :
    (∀ (x y : DWire), x.mod = 2 → y.mod = 2 → x.val < 2 → y.val < 2 →
      bin_addition_no_carry [x] [y] =
        .ok [⟨(x.val + y.val) % 2, 2⟩, ⟨(x.val + y.val + x.val * y.val) % 2, 2⟩] ∧
      ([⟨(x.val + y.val) % 2, 2⟩, ⟨(x.val + y.val + x.val * y.val) % 2, 2⟩] :
        List DWire).length = 2) ∧
    (∀ (xs ys : List DWire), isBin xs → isBin ys → xs.length = ys.length →
      2 ≤ xs.length →
      ∃ zs, bin_addition_no_carry xs ys = .ok zs ∧ zs.length = xs.length) := by
  constructor
  · intro x y hxm hym hxv hyv
    obtain ⟨xv, xm⟩ := x
    obtain ⟨yv, ym⟩ := y
    simp only [DWire_mod_mk] at hxm hym
    simp only [DWire_val_mk] at hxv hyv
    subst hxm hym
    constructor
    · interval_cases xv <;> interval_cases yv <;> rfl
    · rfl
  · intro xs ys hx hy hlen h2
    obtain ⟨zs, hnc, hzlen, _, _⟩ := no_carry_spec xs ys hx hy hlen h2
    exact ⟨zs, hnc, hzlen⟩

/-- Witness for C10 at concrete width-1 and width-2 inputs. -/
theorem claim_C10_witness :
    (bin_addition_no_carry [(⟨1, 2⟩ : DWire)] [⟨1, 2⟩] =
      .ok [⟨(1 + 1) % 2, 2⟩, ⟨(1 + 1 + 1 * 1) % 2, 2⟩] ∧
     ([⟨(1 + 1) % 2, 2⟩, ⟨(1 + 1 + 1 * 1) % 2, 2⟩] : List DWire).length = 2) ∧
    ∃ zs, bin_addition_no_carry [(⟨1, 2⟩ : DWire), ⟨0, 2⟩] [(⟨0, 2⟩ : DWire), ⟨1, 2⟩] =
      .ok zs ∧ zs.length = [(⟨1, 2⟩ : DWire), ⟨0, 2⟩].length :=
  ⟨claim_C10.1 ⟨1, 2⟩ ⟨1, 2⟩ rfl rfl (by decide) (by decide),
   claim_C10.2 [⟨1, 2⟩, ⟨0, 2⟩] [⟨0, 2⟩, ⟨1, 2⟩] (by decide) (by decide) rfl (by decide)⟩

/-- C3 counterexample: at width 1 — included in "for every width n" — with
x = 1 and y = 1 (so y ≠ 0 and x ≥ y, where the claim demands a borrow wire
set to 1), `bin_subtraction` returns no borrow wire at all: it fails with
`UnequalModuli`, because `bin_twos_complement` widens the width-1 subtrahend
to width 2. -/
theorem claim_C3_counterexample :
    bin_subtraction [(⟨1, 2⟩ : DWire)] [⟨1, 2⟩] = .error (.fancy .unequalModuli) := rfl

/-- C3 amended: for every width n ≥ 2 and unsigned values carried by
equal-width well-formed binary bundles, the borrow wire of `bin_subtraction`
equals 1 exactly when `y ≠ 0 ∧ x ≥ y` (a consequence of
`twos_complement(0) = 0`); width-1 bundles instead fail with `UnequalModuli`
since the two's complement widens them to width 2. -/
theorem claim_C3_amended :
    (∀ (xs ys : List DWire), isBin xs → isBin ys → xs.length = ys.length →
      2 ≤ xs.length →
      ∃ ds borrow, bin_subtraction xs ys = .ok (ds, borrow) ∧ borrow.mod = 2 ∧
        (borrow.val = 1 ↔ bval ys ≠ 0 ∧ bval ys ≤ bval xs)) ∧
    (∀ (x y : DWire), x.mod = 2 → y.mod = 2 → x.val < 2 → y.val < 2 →
      bin_subtraction [x] [y] = .error (.fancy .unequalModuli)) := by
  constructor
  · intro xs ys hx hy hlen h2
    obtain ⟨ds, borrow, hsub, hbm, _, _, hbv⟩ :=
      bin_subtraction_spec xs ys hx hy hlen h2
    refine ⟨ds, borrow, hsub, hbm, ?_⟩
    rw [hbv]
    split_ifs with h
    · simp [h]
    · simp [h]
  · intro x y hxm hym hxv hyv
    obtain ⟨xv, xm⟩ := x
    obtain ⟨yv, ym⟩ := y
    simp only [DWire_mod_mk] at hxm hym
    simp only [DWire_val_mk] at hxv hyv
    subst hxm hym
    interval_cases xv <;> interval_cases yv <;> rfl

/-- Witness for C3 amended: width 2, x = 2, y = 1, borrow set. -/
theorem claim_C3_witness :
    ∃ ds borrow,
      bin_subtraction [(⟨0, 2⟩ : DWire), ⟨1, 2⟩] [(⟨1, 2⟩ : DWire), ⟨0, 2⟩] =
        .ok (ds, borrow) ∧ borrow.mod = 2 ∧
      (borrow.val = 1 ↔ bval [(⟨1, 2⟩ : DWire), ⟨0, 2⟩] ≠ 0 ∧
        bval [(⟨1, 2⟩ : DWire), ⟨0, 2⟩] ≤ bval [(⟨0, 2⟩ : DWire), ⟨1, 2⟩]) :=
  claim_C3_amended.1 [⟨0, 2⟩, ⟨1, 2⟩] [⟨1, 2⟩, ⟨0, 2⟩] (by decide) (by decide) rfl
    (by decide)

/-- C2 counterexample: width 2, x = 11 (two's-complement value −1) and
y = 00 (value 0); the claim demands `bin_lt(x, y) = 1` since −1 < 0, but the
gadget returns the wire 0 (it compares unsigned bit patterns). -/
theorem claim_C2_counterexample :
    sval [(⟨1, 2⟩ : DWire), ⟨1, 2⟩] < sval [(⟨0, 2⟩ : DWire), ⟨0, 2⟩] ∧
    bin_lt [(⟨1, 2⟩ : DWire), ⟨1, 2⟩] [(⟨0, 2⟩ : DWire), ⟨0, 2⟩] = .ok ⟨0, 2⟩ := by
  exact ⟨by decide, rfl⟩

/-- C2 amended: for every width n ≥ 2, `bin_lt(x, y)` returns the wire 1
exactly when the unsigned bit-pattern value of x is less than that of y, or
both bundles are all-zero (not the two's-complement signed order), and
`bin_geq` returns its negation; width-1 bundles fail with `UnequalModuli`
because the two's complement inside `bin_subtraction` widens them. -/
theorem claim_C2_amended :
    (∀ (xs ys : List DWire), isBin xs → isBin ys → xs.length = ys.length →
      2 ≤ xs.length →
      bin_lt xs ys =
        .ok ⟨if bval xs < bval ys ∨ (bval xs = 0 ∧ bval ys = 0) then 1 else 0, 2⟩ ∧
      bin_geq xs ys =
        .ok ⟨1 - (if bval xs < bval ys ∨ (bval xs = 0 ∧ bval ys = 0) then 1 else 0),
          2⟩) ∧
    (∀ (x y : DWire), x.mod = 2 → y.mod = 2 → x.val < 2 → y.val < 2 →
      bin_lt [x] [y] = .error (.fancy .unequalModuli)) := by
  constructor
  · intro xs ys hx hy hlen h2
    have hlt := bin_lt_spec xs ys hx hy hlen h2
    refine ⟨hlt, ?_⟩
    rw [bin_geq, hlt]
    simp only [bindOk]
    rw [negate_bit _ rfl (by dsimp only [DWire_val_mk]; split_ifs <;> decide)]
  · intro x y hxm hym hxv hyv
    obtain ⟨xv, xm⟩ := x
    obtain ⟨yv, ym⟩ := y
    simp only [DWire_mod_mk] at hxm hym
    simp only [DWire_val_mk] at hxv hyv
    subst hxm hym
    interval_cases xv <;> interval_cases yv <;> rfl

/-- Witness for C2 amended: width 2, x = 2, y = 3, so lt = 1 and geq = 0. -/
theorem claim_C2_witness :
    bin_lt [(⟨0, 2⟩ : DWire), ⟨1, 2⟩] [(⟨1, 2⟩ : DWire), ⟨1, 2⟩] =
      .ok ⟨if bval [(⟨0, 2⟩ : DWire), ⟨1, 2⟩] < bval [(⟨1, 2⟩ : DWire), ⟨1, 2⟩] ∨
          (bval [(⟨0, 2⟩ : DWire), ⟨1, 2⟩] = 0 ∧ bval [(⟨1, 2⟩ : DWire), ⟨1, 2⟩] = 0)
        then 1 else 0, 2⟩ ∧
    bin_geq [(⟨0, 2⟩ : DWire), ⟨1, 2⟩] [(⟨1, 2⟩ : DWire), ⟨1, 2⟩] =
      .ok ⟨1 - (if bval [(⟨0, 2⟩ : DWire), ⟨1, 2⟩] < bval [(⟨1, 2⟩ : DWire), ⟨1, 2⟩] ∨
          (bval [(⟨0, 2⟩ : DWire), ⟨1, 2⟩] = 0 ∧ bval [(⟨1, 2⟩ : DWire), ⟨1, 2⟩] = 0)
        then 1 else 0), 2⟩ :=
  claim_C2_amended.1 [⟨0, 2⟩, ⟨1, 2⟩] [⟨1, 2⟩, ⟨1, 2⟩] (by decide) (by decide) rfl
    (by decide)

/-- C9: `bin_logical_shr` returns the input bundle unchanged for every shift
amount bundle — the shift amount in the body is the constant 0, so the
result is exactly the wires of `xs` in order and is independent of `ys`. -/
theorem claim_C9 (xs ys : List DWire) : bin_logical_shr xs ys = .ok xs := by
  rw [bin_logical_shr]
  simp [Dummy.constant]

/-- C7 counterexample: on the spec's concrete 4-bit inputs
`[0101, 1100, 0011]` (little-endian wire lists below), `bin_max` returns
`1100` — unsigned value 12, two's-complement value −4 — not `0101` (5). -/
theorem claim_C7_counterexample :
    bin_max [[(⟨1, 2⟩ : DWire), ⟨0, 2⟩, ⟨1, 2⟩, ⟨0, 2⟩],
             [(⟨0, 2⟩ : DWire), ⟨0, 2⟩, ⟨1, 2⟩, ⟨1, 2⟩],
             [(⟨1, 2⟩ : DWire), ⟨1, 2⟩, ⟨0, 2⟩, ⟨0, 2⟩]] =
      .ok [(⟨0, 2⟩ : DWire), ⟨0, 2⟩, ⟨1, 2⟩, ⟨1, 2⟩] ∧
    bval [(⟨0, 2⟩ : DWire), ⟨0, 2⟩, ⟨1, 2⟩, ⟨1, 2⟩] = 12 ∧
    sval [(⟨0, 2⟩ : DWire), ⟨0, 2⟩, ⟨1, 2⟩, ⟨1, 2⟩] = -4 ∧
    [(⟨0, 2⟩ : DWire), ⟨0, 2⟩, ⟨1, 2⟩, ⟨1, 2⟩] ≠
      [(⟨1, 2⟩ : DWire), ⟨0, 2⟩, ⟨1, 2⟩, ⟨0, 2⟩] := by
  refine ⟨rfl, rfl, by decide, by decide⟩

/-- C7 amended: `bin_max` fails with `InvalidArgNum{got, needed: 2}` exactly
when given fewer than two bundles; given at least two it left-folds the
`bin_lt` blend, and on the 4-bit inputs `[0101, 1100, 0011]` it returns
`1100` (unsigned 12), because `bin_lt` orders by unsigned bit patterns. -/
theorem claim_C7_amended :
    (∀ (xs : List (List DWire)), xs.length < 2 →
      bin_max xs = .error (.fancy (.invalidArgNum xs.length 2))) ∧
    (∀ (xs : List (List DWire)), 2 ≤ xs.length →
      bin_max xs = xs.tail.foldlM bin_max_fold (xs.headD [])) ∧
    bin_max [[(⟨1, 2⟩ : DWire), ⟨0, 2⟩, ⟨1, 2⟩, ⟨0, 2⟩],
             [(⟨0, 2⟩ : DWire), ⟨0, 2⟩, ⟨1, 2⟩, ⟨1, 2⟩],
             [(⟨1, 2⟩ : DWire), ⟨1, 2⟩, ⟨0, 2⟩, ⟨0, 2⟩]] =
      .ok [(⟨0, 2⟩ : DWire), ⟨0, 2⟩, ⟨1, 2⟩, ⟨1, 2⟩] := by
  refine ⟨?_, ?_, rfl⟩
  · intro xs h
    rw [bin_max, if_pos h]
  · intro xs h
    rw [bin_max, if_neg (by omega)]

/-- Witness for C7 amended: zero bundles yield `InvalidArgNum{got: 0,
needed: 2}`, and a two-element list runs the fold. -/
theorem claim_C7_witness :
    bin_max ([] : List (List DWire)) = .error (.fancy (.invalidArgNum 0 2)) ∧
    bin_max [[(⟨1, 2⟩ : DWire), ⟨0, 2⟩], [(⟨0, 2⟩ : DWire), ⟨1, 2⟩]] =
      [[(⟨0, 2⟩ : DWire), ⟨1, 2⟩]].foldlM bin_max_fold [(⟨1, 2⟩ : DWire), ⟨0, 2⟩] :=
  ⟨claim_C7_amended.1 [] (by decide),
   claim_C7_amended.2.1 [[⟨1, 2⟩, ⟨0, 2⟩], [⟨0, 2⟩, ⟨1, 2⟩]] (by decide)⟩

/-- C1: Informer ciphertext accounting — `proj` adds exactly `p_x − 1`
ciphertexts; `mul` adds exactly `p_x + p_y − 2` (moduli canonicalized so the
larger comes first) plus one extra when the moduli differ; `add`, `sub`,
`cmul`, `constant` and `output` leave the ciphertext counter unchanged; and
one `proj` with input modulus 7 followed by one `mul` of two modulus-5 wires
yields `nprojs = 1`, `nmuls = 1`, `nciphertexts = 14`. -/
theorem claim_C1 :
    (∀ (s : InformerState) (x p : Nat) (tt : List Nat), 2 ≤ x → tt.length = x →
      tt.all (fun e => e < p) →
      informerProj s x p tt =
        .ok { s with nprojs := s.nprojs + 1,
                     nciphertexts := s.nciphertexts + (x - 1) } p) ∧
    (∀ (s : InformerState) (x y : Nat), 2 ≤ x → 2 ≤ y →
      (informerMul s x y).1.nciphertexts =
        s.nciphertexts + (x + y - 2) + (if x = y then 0 else 1) ∧
      (informerMul s x y).1.nmuls = s.nmuls + 1) ∧
    (∀ (s : InformerState) (x y : Nat), x = y →
      informerAdd s x y = .ok { s with nadds := s.nadds + 1 } x) ∧
    (∀ (s : InformerState) (x y : Nat), x = y →
      informerSub s x y = .ok { s with nsubs := s.nsubs + 1 } x) ∧
    (∀ (s : InformerState) (x c : Nat),
      informerCmul s x c = ({ s with ncmuls := s.ncmuls + 1 }, x)) ∧
    (∀ (s : InformerState) (v p : Nat),
      (informerConstant s v p).1.nciphertexts = s.nciphertexts) ∧
    (∀ (s : InformerState) (x : Nat),
      (informerOutput s x).nciphertexts = s.nciphertexts) ∧
    (informerProj InformerState.init 7 2 [0, 1, 0, 1, 0, 1, 0] =
      .ok { InformerState.init with nprojs := 1, nciphertexts := 6 } 2 ∧
     (informerMul { InformerState.init with nprojs := 1, nciphertexts := 6 } 5 5).1 =
      { InformerState.init with nprojs := 1, nmuls := 1, nciphertexts := 14 }) := by
  refine ⟨?_, ?_, ?_, ?_, ?_, ?_, ?_, rfl, ?_⟩
  · intro s x p tt h2 hlen hall
    rw [informerProj, if_pos hlen, if_pos hall]
  · intro s x y hx hy
    rcases Nat.lt_trichotomy x y with h | h | h
    · rw [informerMul, if_pos h, informerMul, if_neg (by omega)]
      simp only [informerMulCounted]
      rw [if_pos (by omega : y ≠ x)]
      constructor
      · simp only []
        rw [if_neg (by omega : ¬ x = y)]
        omega
      · rfl
    · subst h
      rw [informerMul, if_neg (by omega)]
      simp only [informerMulCounted]
      rw [if_neg (by omega : ¬ x ≠ x)]
      constructor
      · simp
      · rfl
    · rw [informerMul, if_neg (by omega)]
      simp only [informerMulCounted]
      rw [if_pos (by omega : x ≠ y)]
      constructor
      · simp only []
        rw [if_neg (by omega : ¬ x = y)]
      · rfl
  · intro s x y h
    rw [informerAdd, if_pos h]
  · intro s x y h
    rw [informerSub, if_pos h]
  · intro s x c
    rfl
  · intro s v p
    rw [informerConstant]
  · intro s x
    rfl
  · rw [informerMul]
    norm_num
    rfl

/-- Witness for C1 at concrete inputs: a valid projection of modulus 7 to
modulus 2, a mul of moduli 3 and 7, and an add of equal moduli. -/
theorem claim_C1_witness :
    informerProj InformerState.init 7 2 [0, 1, 0, 1, 0, 1, 0] =
      .ok { InformerState.init with nprojs := 0 + 1, nciphertexts := 0 + (7 - 1) } 2 ∧
    (informerMul InformerState.init 3 7).1.nciphertexts =
      0 + (3 + 7 - 2) + (if 3 = 7 then 0 else 1) ∧
    informerAdd InformerState.init 5 5 =
      .ok { InformerState.init with nadds := 0 + 1 } 5 :=
  ⟨claim_C1.1 InformerState.init 7 2 [0, 1, 0, 1, 0, 1, 0] (by decide) rfl (by decide),
   (claim_C1.2.1 InformerState.init 3 7 (by decide) (by decide)).1,
   claim_C1.2.2.1 InformerState.init 5 5 rfl⟩

/-- C5: the Informer `mul` is insensitive to argument order — swapping the
arguments produces the identical state (the same `nmuls` and `nciphertexts`
increments, with no double counting from the canonicalizing swap) — and the
returned wire carries the larger of the two input moduli. -/
theorem claim_C5 (s : InformerState) (x y : Nat) (hx : 2 ≤ x) (hy : 2 ≤ y) :
    informerMul s x y = informerMul s y x ∧ (informerMul s x y).2 = max x y := by
  rcases Nat.lt_trichotomy x y with h | h | h
  · constructor
    · rw [informerMul, if_pos h]
    · rw [informerMul, if_pos h, informerMul, if_neg (by omega)]
      simp only [informerMulCounted]
      have : max x y = y := by omega
      rw [this]
  · subst h
    refine ⟨rfl, ?_⟩
    rw [informerMul, if_neg (by omega)]
    simp only [informerMulCounted]
    have : max x x = x := by omega
    rw [this]
  · constructor
    · rw [informerMul, if_neg (by omega), informerMul, if_pos h, informerMul,
        if_neg (by omega)]
    · rw [informerMul, if_neg (by omega)]
      simp only [informerMulCounted]
      have : max x y = x := by omega
      rw [this]

/-- Witness for C5 at moduli 3 and 7. -/
theorem claim_C5_witness :
    informerMul InformerState.init 3 7 = informerMul InformerState.init 7 3 ∧
    (informerMul InformerState.init 3 7).2 = max 3 7 :=
  claim_C5 InformerState.init 3 7 (by decide) (by decide)

/-- C8 counterexample: the Informer `proj` with a truth table of the wrong
length, and `add` on unequally-tagged wires, abort through a violated
`assert!` (a panic) — they do not return an `InvalidTruthTable` or
`UnequalModuli` error value. -/
theorem claim_C8_counterexample :
    informerProj InformerState.init 3 5 [0] = .panicked ∧
    informerProj InformerState.init 3 5 [0] ≠ .err .invalidTruthTable ∧
    informerAdd InformerState.init 2 3 = .panicked ∧
    informerAdd InformerState.init 2 3 ≠ .err .unequalModuli := by
  refine ⟨rfl, by decide, rfl, by decide⟩

/-- C8 amended: the Informer's primitives return bare wires, not a
result-or-error shape — a projection whose table length differs from the
input modulus or whose entries are not below the output modulus panics via
an assertion, as do `add` and `sub` on unequally-tagged operands; no
invocation ever produces an error value, and valid invocations succeed. -/
theorem claim_C8_amended :
    (∀ (s : InformerState) (x p : Nat) (tt : List Nat), tt.length ≠ x →
      informerProj s x p tt = .panicked) ∧
    (∀ (s : InformerState) (x p : Nat) (tt : List Nat),
      ¬ (tt.all (fun e => e < p) = true) → informerProj s x p tt = .panicked) ∧
    (∀ (s : InformerState) (x y : Nat), x ≠ y →
      informerAdd s x y = .panicked ∧ informerSub s x y = .panicked) ∧
    (∀ (s : InformerState) (x p : Nat) (tt : List Nat) (e : FancyError),
      informerProj s x p tt ≠ .err e) ∧
    (∀ (s : InformerState) (x y : Nat) (e : FancyError),
      informerAdd s x y ≠ .err e ∧ informerSub s x y ≠ .err e) ∧
    (∀ (s : InformerState) (x y : Nat), x = y →
      informerAdd s x y = .ok { s with nadds := s.nadds + 1 } x) ∧
    (∀ (s : InformerState) (x p : Nat) (tt : List Nat), tt.length = x →
      tt.all (fun e => e < p) →
      informerProj s x p tt =
        .ok { s with nprojs := s.nprojs + 1,
                     nciphertexts := s.nciphertexts + (x - 1) } p) := by
  refine ⟨?_, ?_, ?_, ?_, ?_, ?_, ?_⟩
  · intro s x p tt h
    rw [informerProj, if_neg h]
  · intro s x p tt h
    by_cases h1 : tt.length = x
    · rw [informerProj, if_pos h1, if_neg h]
    · rw [informerProj, if_neg h1]
  · intro s x y h
    exact ⟨by rw [informerAdd, if_neg h], by rw [informerSub, if_neg h]⟩
  · intro s x p tt e
    rw [informerProj]
    split_ifs <;> simp
  · intro s x y e
    constructor
    · rw [informerAdd]
      split_ifs <;> simp
    · rw [informerSub]
      split_ifs <;> simp
  · intro s x y h
    rw [informerAdd, if_pos h]
  · intro s x p tt h1 h2
    rw [informerProj, if_pos h1, if_pos h2]

/-- Witness for C8 amended at concrete panicking and succeeding calls. -/
theorem claim_C8_witness :
    informerProj InformerState.init 2 2 [0] = .panicked ∧
    (informerAdd InformerState.init 4 6 = .panicked ∧
     informerSub InformerState.init 4 6 = .panicked) ∧
    informerAdd InformerState.init 6 6 =
      .ok { InformerState.init with nadds := 0 + 1 } 6 :=
  ⟨claim_C8_amended.1 InformerState.init 2 2 [0] (by decide),
   claim_C8_amended.2.2.1 InformerState.init 4 6 (by decide),
   claim_C8_amended.2.2.2.2.2.1 InformerState.init 6 6 rfl⟩

/-- Witness for C9 at a concrete bundle and shift amount. -/
theorem claim_C9_witness :
    bin_logical_shr [(⟨1, 2⟩ : DWire), ⟨0, 2⟩, ⟨1, 2⟩] [(⟨1, 2⟩ : DWire)] =
      .ok [(⟨1, 2⟩ : DWire), ⟨0, 2⟩, ⟨1, 2⟩] :=
  claim_C9 [⟨1, 2⟩, ⟨0, 2⟩, ⟨1, 2⟩] [⟨1, 2⟩]
